import Mathlib

/-!
Verification of the citation-integrity pipeline of the AI journalist
assistant repository (services/draft_validator.py, services/retriever.py,
services/outline_agent.py, services/draft_agent.py, services/tools.py).

The Python code is shallowly embedded: dict-shaped source records become a
`Source` structure (a field read `d.get(k, default)` becomes `Option.getD`),
floats become `ℚ`, and the regular expressions of draft_validator.py
(`\[(\d+)\]` and the markdown-stripping patterns of `count_words`) become
explicit character scanners over `List Char` that mirror `re`'s
left-to-right, non-overlapping scan discipline (on a failed match the scan
resumes one character after the match's starting position; on a successful
match it resumes after the match, and replacement text is never rescanned).
Scanners take an explicit fuel argument so that they are structurally
recursive and kernel-evaluable; fuel equal to the length of the remaining
input is always sufficient, since every step consumes at least one
character.
-/

namespace AIJournalist

/-- ASCII decimal digits, the characters matched by `\d` on the drafts the
pipeline handles. -/
def isDigitChar (c : Char) : Bool := c.isDigit

/-- Python `int` on a nonempty string of decimal digits. -/
def digitsToNat (ds : List Char) : Nat :=
  ds.foldl (fun a c => 10 * a + (c.toNat - 48)) 0

/-- One retrievable evidence record, the dict shape built by
`extract_sources_from_tool_output` (outline_agent.py): keys that may be
absent are `Option`-valued, matching the code's `d.get(key, default)`
reads. -/
structure Source where
  title : Option String
  source : Option String
  source_type : Option String
  date : Option String
  url : Option String
  relevance_score : Option ℚ
  text : Option String
deriving DecidableEq

/-- A source record with every optional key absent. -/
def emptySource : Source := ⟨none, none, none, none, none, none, none⟩

/-- Scanner for `re.findall(r'\[(\d+)\]', draft)` followed by `int` on each
group (extract_source_numbers, draft_validator.py lines 33-48).  `fuel`
bounds the recursion; `fuel = input length` always suffices. -/
def extractAux : Nat → List Char → List Nat
  | 0, _ => []
  | _ + 1, [] => []
  | fuel + 1, c :: rest =>
    if c = '[' then
      let ds := rest.takeWhile isDigitChar
      let tl := rest.dropWhile isDigitChar
      if ds ≠ [] ∧ tl.head? = some ']' then
        digitsToNat ds :: extractAux fuel tl.tail
      else extractAux fuel rest
    else extractAux fuel rest

/-- `extract_source_numbers(draft)` of draft_validator.py. -/
def extract_source_numbers (draft : String) : List Nat :=
  extractAux draft.data.length draft.data

/-- Result shape of `track_source_usage` (draft_validator.py lines 133-174).
A used record is the Python `source.copy()` with a `citation_number` key
added, embedded as the pair of the original record and that number. -/
structure TrackResult where
  sources_used : List (Source × Nat)
  sources_available : List Source
  citation_count : Nat
  unique_sources_count : Nat
deriving DecidableEq

/-- The `for i, source in enumerate(available_sources, 1)` loop of
`track_source_usage`: split the sources on membership of the 1-based index
in the set of cited numbers. -/
def trackAux (used : List Nat) : Nat → List Source → List (Source × Nat) × List Source
  | _, [] => ([], [])
  | i, s :: rest =>
    let p := trackAux used (i + 1) rest
    if i ∈ used then ((s, i) :: p.1, p.2) else (p.1, s :: p.2)

/-- `track_source_usage(draft, available_sources)` of draft_validator.py.
Python's `set(cited_numbers)` is embedded as `List.dedup`, whose membership
and cardinality agree with the set's. -/
def track_source_usage (draft : String) (available_sources : List Source) : TrackResult :=
  let cited_numbers := extract_source_numbers draft
  let used_numbers := cited_numbers.dedup
  let p := trackAux used_numbers 1 available_sources
  ⟨p.1, p.2, cited_numbers.length, used_numbers.length⟩

/-- The two halves returned by the enumerate loop of `track_source_usage`
partition the input: stripping the added citation numbers and concatenating
gives back the input list up to permutation. -/
theorem trackAux_perm (used : List Nat) (i : Nat) (l : List Source) :
    ((trackAux used i l).1.map Prod.fst ++ (trackAux used i l).2).Perm l := by
  induction l generalizing i with
  | nil => simp [trackAux]
  | cons s rest ih =>
    by_cases h : i ∈ used
    · simpa [trackAux, h] using ((ih (i + 1)).cons s)
    · simpa [trackAux, h] using (List.perm_middle.trans ((ih (i + 1)).cons s))

/-- The used half of the enumerate loop has one entry per index of
`range' i l.length` that lies in the cited set. -/
theorem trackAux_fst_length (used : List Nat) (i : Nat) (l : List Source) :
    (trackAux used i l).1.length
      = ((List.range' i l.length).filter (fun n => decide (n ∈ used))).length := by
  induction l generalizing i with
  | nil => simp [trackAux]
  | cons s rest ih =>
    by_cases h : i ∈ used <;>
      simp [trackAux, h, List.range'_succ, ih (i + 1)]

/-- C1 is false as stated: a draft citing `[7]` against three available
sources yields `unique_sources_count = 1` (the distinct cited number 7) but
`sources_used = []` (no index 1..3 is cited). -/
theorem C1_counterexample :
    (track_source_usage "[7]" [emptySource, emptySource, emptySource]).unique_sources_count
      ≠ (track_source_usage "[7]" [emptySource, emptySource, emptySource]).sources_used.length := by
  decide

/-- C1 (amended): when every citation number occurring in the draft lies in
`1..len(available_sources)`, the count of distinct citation numbers equals
the number of source records classified as used. -/
theorem C1_unique_count_eq_sources_used_length
    (draft : String) (sources : List Source)
    (h : ∀ n ∈ extract_source_numbers draft, 1 ≤ n ∧ n ≤ sources.length) :
    (track_source_usage draft sources).unique_sources_count
      = (track_source_usage draft sources).sources_used.length := by
  show (extract_source_numbers draft).dedup.length = _
  rw [show (track_source_usage draft sources).sources_used
        = (trackAux (extract_source_numbers draft).dedup 1 sources).1 from rfl,
    trackAux_fst_length]
  refine (List.Perm.length_eq ?_).symm
  refine (List.perm_ext_iff_of_nodup ((List.nodup_range' 1 sources.length).filter _)
    (List.nodup_dedup _)).2 ?_
  intro a
  simp only [List.mem_filter, List.mem_range'_1, List.mem_dedup, decide_eq_true_eq,
    and_iff_right_iff_imp]
  intro ha
  have := h a ha
  omega

/-- C1 witness: a draft citing `[1]` and `[2]` against three sources has all
citations in range, and indeed two distinct citations and two used records. -/
theorem C1_witness :
    (∀ n ∈ extract_source_numbers "[1] and [2]",
        1 ≤ n ∧ n ≤ ([emptySource, emptySource, emptySource] : List Source).length)
    ∧ (track_source_usage "[1] and [2]" [emptySource, emptySource, emptySource]).unique_sources_count
        = (track_source_usage "[1] and [2]" [emptySource, emptySource, emptySource]).sources_used.length :=
  ⟨by decide,
    C1_unique_count_eq_sources_used_length "[1] and [2]"
      [emptySource, emptySource, emptySource] (by decide)⟩

/-- C5: for every draft text and every fused source list, `sources_used`
(stripped of the added citation numbers) together with `sources_available`
is a permutation of the input list: each input record lands in exactly one
of the two lists, with no duplicates and no omissions. -/
theorem C5_track_source_usage_partition (draft : String) (sources : List Source) :
    ((track_source_usage draft sources).sources_used.map Prod.fst
      ++ (track_source_usage draft sources).sources_available).Perm sources :=
  trackAux_perm (extract_source_numbers draft).dedup 1 sources

/-- Decimal digit character of `d < 10` (defaulting to `'0'`). -/
def natDigitChar (d : Nat) : Char :=
  match d with
  | 0 => '0' | 1 => '1' | 2 => '2' | 3 => '3' | 4 => '4'
  | 5 => '5' | 6 => '6' | 7 => '7' | 8 => '8' | 9 => '9'
  | _ => '0'

/-- Fuel-bounded accumulator loop producing the decimal digits of a number;
`fuel = n + 1` always suffices. -/
def natDigitsAux : Nat → Nat → List Char → List Char
  | 0, _, acc => acc
  | fuel + 1, n, acc =>
    if n < 10 then natDigitChar n :: acc
    else natDigitsAux fuel (n / 10) (natDigitChar (n % 10) :: acc)

/-- The decimal digit characters of `n`, Python's `str(num)` for a
nonnegative int. -/
def natDigits (n : Nat) : List Char := natDigitsAux (n + 1) n []

/-- The replacement string `f"[{num}, {source_name}, {title}, {date}]"`
built by `replace_citation` inside `expand_citations`
(draft_validator.py lines 188-195). -/
def expandedCitation (n : Nat) (s : Source) : List Char :=
  '[' :: natDigits n
    ++ (", ").data ++ (s.source.getD "Unknown").data
    ++ (", ").data ++ (s.title.getD "Unknown").data
    ++ (", ").data ++ (s.date.getD "Unknown").data ++ [']']

/-- Scanner for `re.sub(r'\[(\d+)\]', replace_citation, draft)` of
`expand_citations` (draft_validator.py lines 177-203): an in-range match is
replaced by the expanded citation, an out-of-range match is re-emitted
verbatim (`match.group(0)`), and scanning resumes after the match; a failed
match at `'['` emits the bracket and resumes one character later.  The
in-range lookup `sources[num - 1]` is embedded as `(sources.get? (n - 1)).getD
emptySource`; the guard `1 ≤ n ∧ n ≤ sources.length` makes the default
unreachable, so no index error can occur. -/
def expandAux (sources : List Source) : Nat → List Char → List Char
  | 0, _ => []
  | _ + 1, [] => []
  | fuel + 1, c :: rest =>
    if c = '[' then
      let ds := rest.takeWhile isDigitChar
      let tl := rest.dropWhile isDigitChar
      if ds ≠ [] ∧ tl.head? = some ']' then
        let n := digitsToNat ds
        if 1 ≤ n ∧ n ≤ sources.length then
          expandedCitation n ((sources.get? (n - 1)).getD emptySource)
            ++ expandAux sources fuel tl.tail
        else '[' :: ds ++ ']' :: expandAux sources fuel tl.tail
      else '[' :: expandAux sources fuel rest
    else c :: expandAux sources fuel rest

/-- `expand_citations(draft, sources)` of draft_validator.py. -/
def expand_citations (draft : String) (sources : List Source) : String :=
  ⟨expandAux sources draft.data.length draft.data⟩

/-- List-level expansion with canonical fuel. -/
def expandC (sources : List Source) (l : List Char) : List Char :=
  expandAux sources l.length l

/-- List-level extraction with canonical fuel. -/
def extractC (l : List Char) : List Nat := extractAux l.length l

/-- Dropping a satisfying prefix never lengthens a list. -/
theorem length_dropWhile_le {α : Type} (p : α → Bool) (l : List α) :
    (l.dropWhile p).length ≤ l.length := by
  induction l with
  | nil => simp
  | cons c rest ih =>
    rw [List.dropWhile_cons]
    split
    · exact Nat.le_succ_of_le ih
    · simp

/-- The head of the remainder of `dropWhile` fails the predicate. -/
theorem dropWhile_head_false {α : Type} {p : α → Bool} {l l2 : List α} {c : α}
    (h : l.dropWhile p = c :: l2) : p c = false := by
  induction l with
  | nil => simp at h
  | cons a t ih =>
    rw [List.dropWhile_cons] at h
    by_cases hp : p a
    · exact ih (by simpa [hp] using h)
    · obtain ⟨rfl, -⟩ := List.cons.injEq .. ▸ (by simpa [hp] using h : a :: t = c :: l2)
      exact Bool.not_eq_true _ ▸ hp

/-- `takeWhile` passes over a prefix every element of which satisfies the
predicate. -/
theorem takeWhile_append_all {α : Type} {p : α → Bool} {ds : List α}
    (h : ∀ c ∈ ds, p c = true) (x : List α) :
    (ds ++ x).takeWhile p = ds ++ x.takeWhile p := by
  induction ds with
  | nil => rfl
  | cons c t ih =>
    rw [List.cons_append, List.takeWhile_cons, if_pos (h c (List.mem_cons_self c t)),
      ih (fun d hd => h d (List.mem_cons_of_mem c hd))]
    rfl

/-- `dropWhile` consumes a prefix every element of which satisfies the
predicate. -/
theorem dropWhile_append_all {α : Type} {p : α → Bool} {ds : List α}
    (h : ∀ c ∈ ds, p c = true) (x : List α) :
    (ds ++ x).dropWhile p = x.dropWhile p := by
  induction ds with
  | nil => rfl
  | cons c t ih =>
    rw [List.cons_append, List.dropWhile_cons, if_pos (h c (List.mem_cons_self c t)),
      ih (fun d hd => h d (List.mem_cons_of_mem c hd))]

/-- Every digit character produced by `natDigitChar` is a digit. -/
theorem natDigitChar_isDigit (d : Nat) : isDigitChar (natDigitChar d) = true := by
  unfold natDigitChar
  split <;> decide

/-- The digit accumulator only ever adds digit characters. -/
theorem natDigitsAux_digits : ∀ (fuel n : Nat) (acc : List Char),
    (∀ c ∈ acc, isDigitChar c = true) →
    ∀ c ∈ natDigitsAux fuel n acc, isDigitChar c = true := by
  intro fuel
  induction fuel with
  | zero => intro n acc hacc c hc; exact hacc c hc
  | succ f ih =>
    intro n acc hacc c hc
    rw [natDigitsAux] at hc
    split at hc
    · rcases List.mem_cons.1 hc with rfl | h
      · exact natDigitChar_isDigit n
      · exact hacc c h
    · refine ih _ _ ?_ c hc
      intro d hd
      rcases List.mem_cons.1 hd with rfl | h
      · exact natDigitChar_isDigit _
      · exact hacc d h

/-- The digit accumulator never returns an empty list unless both the fuel
and the accumulator are empty. -/
theorem natDigitsAux_ne_nil : ∀ (fuel n : Nat) (acc : List Char),
    acc ≠ [] ∨ fuel ≠ 0 → natDigitsAux fuel n acc ≠ [] := by
  intro fuel
  induction fuel with
  | zero =>
    intro n acc h
    rcases h with h | h
    · exact h
    · exact absurd rfl h
  | succ f ih =>
    intro n acc h
    rw [natDigitsAux]
    split
    · exact List.cons_ne_nil _ _
    · exact ih _ _ (Or.inl (List.cons_ne_nil _ _))

/-- The decimal representation of a number is nonempty. -/
theorem natDigits_ne_nil (n : Nat) : natDigits n ≠ [] :=
  natDigitsAux_ne_nil (n + 1) n [] (Or.inr (Nat.succ_ne_zero n))

/-- Every character of the decimal representation is a digit. -/
theorem natDigits_digits (n : Nat) : ∀ c ∈ natDigits n, isDigitChar c = true :=
  natDigitsAux_digits (n + 1) n [] (by intro c hc; simp at hc)

/-- Digit characters are not an opening bracket. -/
theorem lbrack_not_digit {c : Char} (h : isDigitChar c = true) : c ≠ '[' := by
  intro he
  subst he
  exact absurd h (by decide)

/-- Any fuel at least the length of the input gives the same extraction:
each scanner step consumes at least one character. -/
theorem extractAux_fuel : ∀ (f g : Nat) (l : List Char), l.length ≤ f → l.length ≤ g →
    extractAux f l = extractAux g l := by
  intro f
  induction f with
  | zero =>
    intro g l hf _
    have hl : l = [] := List.length_eq_zero.1 (Nat.le_zero.1 hf)
    subst hl
    cases g <;> rfl
  | succ f ih =>
    intro g l hf hg
    cases l with
    | nil => cases g <;> rfl
    | cons c rest =>
      cases g with
      | zero => simp at hg
      | succ g =>
        have h1 : rest.length ≤ f := Nat.succ_le_succ_iff.1 (by simpa using hf)
        have h2 : rest.length ≤ g := Nat.succ_le_succ_iff.1 (by simpa using hg)
        have h3 : (rest.dropWhile isDigitChar).tail.length ≤ rest.length := by
          have := length_dropWhile_le isDigitChar rest
          have := List.length_tail (rest.dropWhile isDigitChar)
          omega
        simp only [extractAux]
        split_ifs
        · rw [ih g _ (le_trans h3 h1) (le_trans h3 h2)]
        · rw [ih g rest h1 h2]
        · rw [ih g rest h1 h2]

/-- Any fuel at least the length of the input gives the same expansion. -/
theorem expandAux_fuel (sources : List Source) :
    ∀ (f g : Nat) (l : List Char), l.length ≤ f → l.length ≤ g →
    expandAux sources f l = expandAux sources g l := by
  intro f
  induction f with
  | zero =>
    intro g l hf _
    have hl : l = [] := List.length_eq_zero.1 (Nat.le_zero.1 hf)
    subst hl
    cases g <;> rfl
  | succ f ih =>
    intro g l hf hg
    cases l with
    | nil => cases g <;> rfl
    | cons c rest =>
      cases g with
      | zero => simp at hg
      | succ g =>
        have h1 : rest.length ≤ f := Nat.succ_le_succ_iff.1 (by simpa using hf)
        have h2 : rest.length ≤ g := Nat.succ_le_succ_iff.1 (by simpa using hg)
        have h3 : (rest.dropWhile isDigitChar).tail.length ≤ rest.length := by
          have := length_dropWhile_le isDigitChar rest
          have := List.length_tail (rest.dropWhile isDigitChar)
          omega
        simp only [expandAux]
        split_ifs
        · rw [ih g _ (le_trans h3 h1) (le_trans h3 h2)]
        · rw [ih g _ (le_trans h3 h1) (le_trans h3 h2)]
        · rw [ih g rest h1 h2]
        · rw [ih g rest h1 h2]

/-- Scanner step: a character other than `'['` is copied. -/
theorem expandC_cons_ne (sources : List Source) {c : Char} (hc : c ≠ '[')
    (rest : List Char) :
    expandC sources (c :: rest) = c :: expandC sources rest := by
  simp [expandC, expandAux, hc]

/-- Scanner step: at `'['` with no citation match, the bracket is emitted
and scanning resumes after it. -/
theorem expandC_nomatch (sources : List Source) {rest : List Char}
    (h : ¬(rest.takeWhile isDigitChar ≠ []
        ∧ (rest.dropWhile isDigitChar).head? = some ']')) :
    expandC sources ('[' :: rest) = '[' :: expandC sources rest := by
  simp only [expandC, expandAux, List.length_cons, if_pos rfl, if_neg h, if_true]

/-- Scanner step: an in-range citation match is replaced by the expanded
citation and scanning resumes after the match. -/
theorem expandC_match_in (sources : List Source) {rest : List Char}
    (hds : rest.takeWhile isDigitChar ≠ [])
    (htl : (rest.dropWhile isDigitChar).head? = some ']')
    (hn : 1 ≤ digitsToNat (rest.takeWhile isDigitChar)
        ∧ digitsToNat (rest.takeWhile isDigitChar) ≤ sources.length) :
    expandC sources ('[' :: rest)
      = expandedCitation (digitsToNat (rest.takeWhile isDigitChar))
          ((sources.get? (digitsToNat (rest.takeWhile isDigitChar) - 1)).getD emptySource)
          ++ expandC sources (rest.dropWhile isDigitChar).tail := by
  have h3 : (rest.dropWhile isDigitChar).tail.length ≤ rest.length := by
    have := length_dropWhile_le isDigitChar rest
    have := List.length_tail (rest.dropWhile isDigitChar)
    omega
  simp only [expandC, expandAux, List.length_cons, if_pos rfl, if_pos (And.intro hds htl),
    if_pos hn, if_true]
  rw [expandAux_fuel sources rest.length _ _ h3 le_rfl]

/-- Scanner step: an out-of-range citation match is re-emitted verbatim and
scanning resumes after the match. -/
theorem expandC_match_out (sources : List Source) {rest : List Char}
    (hds : rest.takeWhile isDigitChar ≠ [])
    (htl : (rest.dropWhile isDigitChar).head? = some ']')
    (hn : ¬(1 ≤ digitsToNat (rest.takeWhile isDigitChar)
        ∧ digitsToNat (rest.takeWhile isDigitChar) ≤ sources.length)) :
    expandC sources ('[' :: rest)
      = '[' :: rest.takeWhile isDigitChar
          ++ ']' :: expandC sources (rest.dropWhile isDigitChar).tail := by
  have h3 : (rest.dropWhile isDigitChar).tail.length ≤ rest.length := by
    have := length_dropWhile_le isDigitChar rest
    have := List.length_tail (rest.dropWhile isDigitChar)
    omega
  simp only [expandC, expandAux, List.length_cons, if_pos rfl, if_pos (And.intro hds htl),
    if_neg hn, if_true]
  rw [expandAux_fuel sources rest.length _ _ h3 le_rfl]

/-- The scanner preserves the head character of the input. -/
theorem expandC_head (sources : List Source) (l : List Char) :
    (expandC sources l).head? = l.head? := by
  cases l with
  | nil => rfl
  | cons c rest =>
    by_cases hc : c = '['
    · subst hc
      by_cases hm : rest.takeWhile isDigitChar ≠ []
          ∧ (rest.dropWhile isDigitChar).head? = some ']'
      · by_cases hn : 1 ≤ digitsToNat (rest.takeWhile isDigitChar)
            ∧ digitsToNat (rest.takeWhile isDigitChar) ≤ sources.length
        · rw [expandC_match_in sources hm.1 hm.2 hn]
          rfl
        · rw [expandC_match_out sources hm.1 hm.2 hn]
          rfl
      · rw [expandC_nomatch sources hm]
        rfl
    · rw [expandC_cons_ne sources hc]
      rfl

/-- A bracket-free prefix is copied verbatim by the scanner, and scanning
continues independently on the remainder. -/
theorem expandC_append_no_lbrack (sources : List Source) :
    ∀ {a : List Char}, '[' ∉ a → ∀ (b : List Char),
    expandC sources (a ++ b) = a ++ expandC sources b := by
  intro a
  induction a with
  | nil => intro _ b; rfl
  | cons c a2 ih =>
    intro ha b
    simp only [List.mem_cons, not_or] at ha
    rw [List.cons_append, expandC_cons_ne sources (fun h => ha.1 h.symm), ih ha.2 b,
      List.cons_append]

/-- The attribution fields of a source contain no opening bracket, so the
replacement text a source contributes to an expanded citation can never
form a new bare `[N]` pattern. -/
def cleanFields (s : Source) : Prop :=
  '[' ∉ (s.source.getD "Unknown").data ∧ '[' ∉ (s.title.getD "Unknown").data
    ∧ '[' ∉ (s.date.getD "Unknown").data

instance (s : Source) : Decidable (cleanFields s) := by
  unfold cleanFields
  infer_instance

/-- The part of an expanded citation after the number and its following
comma. -/
def citeBody (s : Source) : List Char :=
  ' ' :: ((s.source.getD "Unknown").data
    ++ (", ").data ++ (s.title.getD "Unknown").data
    ++ (", ").data ++ (s.date.getD "Unknown").data ++ [']'])

/-- An expanded citation is the bracket, the digits of the number, a comma,
and the body. -/
theorem expandedCitation_decomp (n : Nat) (s : Source) :
    expandedCitation n s = '[' :: (natDigits n ++ ',' :: citeBody s) := by
  have h : (", " : String).data = [',', ' '] := rfl
  simp [expandedCitation, citeBody, h, List.append_assoc]

/-- The body of an expanded citation of a clean-field source contains no
opening bracket. -/
theorem citeBody_no_lbrack {s : Source} (h : cleanFields s) : '[' ∉ citeBody s := by
  intro hmem
  have h1 := h.1
  have h2 := h.2.1
  have h3 := h.2.2
  simp only [citeBody, List.mem_cons, List.mem_append] at hmem
  rcases hmem with h0 | ((((h0 | h0) | h0) | h0) | h0) | h0
  · exact absurd h0 (by decide)
  · exact h1 h0
  · exact absurd h0 (by decide)
  · exact h2 h0
  · exact absurd h0 (by decide)
  · exact h3 h0
  · exact absurd h0 (by decide)

/-- The digits-then-comma-then-body middle of an expanded citation contains
no opening bracket. -/
theorem citeMiddle_no_lbrack {s : Source} (h : cleanFields s) (n : Nat) :
    '[' ∉ natDigits n ++ ',' :: citeBody s := by
  intro hmem
  rcases List.mem_append.1 hmem with h0 | h0
  · exact lbrack_not_digit (natDigits_digits n _ h0) rfl
  · rcases List.mem_cons.1 h0 with h0 | h0
    · exact absurd h0 (by decide)
    · exact citeBody_no_lbrack h h0

/-- The head of the remainder of `dropWhile`, if any, fails the predicate. -/
theorem dropWhile_head?_false {α : Type} {p : α → Bool} {l : List α} {c : α}
    (h : (l.dropWhile p).head? = some c) : p c = false := by
  rcases hd : l.dropWhile p with - | ⟨t, ts⟩
  · rw [hd] at h
    exact absurd h (by simp)
  · rw [hd] at h
    have ht : t = c := by simpa using h
    exact ht ▸ dropWhile_head_false hd

/-- Expansion is idempotent when every source has clean attribution fields:
a second scan finds no new bare `[N]` citation, because every in-range match
was replaced by a bracketed group whose digits are followed by a comma,
out-of-range matches are reproduced verbatim and fail the range check again,
and non-matching text is copied. -/
theorem expandC_idem (sources : List Source) (hs : ∀ s ∈ sources, cleanFields s) :
    ∀ l : List Char, expandC sources (expandC sources l) = expandC sources l := by
  suffices H : ∀ (N : Nat) (l : List Char), l.length ≤ N →
      expandC sources (expandC sources l) = expandC sources l from
    fun l => H l.length l le_rfl
  intro N
  induction N with
  | zero =>
    intro l hl
    have hnil : l = [] := List.length_eq_zero.1 (Nat.le_zero.1 hl)
    subst hnil
    rfl
  | succ N ih =>
    intro l hl
    cases l with
    | nil => rfl
    | cons c rest =>
      have hrest : rest.length ≤ N := Nat.succ_le_succ_iff.1 (by simpa using hl)
      have htail : (rest.dropWhile isDigitChar).tail.length ≤ N := by
        have := length_dropWhile_le isDigitChar rest
        have := List.length_tail (rest.dropWhile isDigitChar)
        omega
      by_cases hc : c = '['
      case neg =>
        rw [expandC_cons_ne sources hc, expandC_cons_ne sources hc, ih rest hrest]
      case pos =>
        subst hc
        by_cases hm : rest.takeWhile isDigitChar ≠ []
            ∧ (rest.dropWhile isDigitChar).head? = some ']'
        case neg =>
          rw [expandC_nomatch sources hm]
          have hm2 : ¬((expandC sources rest).takeWhile isDigitChar ≠ []
              ∧ ((expandC sources rest).dropWhile isDigitChar).head? = some ']') := by
            by_cases h0 : rest.takeWhile isDigitChar = []
            · -- the head of rest is absent or not a digit; the scan output
              -- has the same head, so the second scan finds no digits either
              intro hcon
              apply hcon.1
              cases rest with
              | nil => rfl
              | cons r rs =>
                have hrd : isDigitChar r = false := by
                  by_contra hrd
                  rw [List.takeWhile_cons, if_pos (Bool.not_eq_false _ ▸ hrd)] at h0
                  exact List.cons_ne_nil _ _ h0
                have hhead : (expandC sources (r :: rs)).head? = some r :=
                  expandC_head sources (r :: rs)
                rcases hE : expandC sources (r :: rs) with - | ⟨u, us⟩
                · rw [hE] at hhead
                  exact absurd hhead (by simp)
                · rw [hE] at hhead
                  have hu : u = r := by simpa using hhead
                  rw [List.takeWhile_cons, hu, if_neg (by simp [hrd])]
            · -- digits are present but the character after them is not ']';
              -- the copied digits are followed by the same character
              have hnr : ¬((rest.dropWhile isDigitChar).head? = some ']') := by
                intro hb
                exact hm ⟨h0, hb⟩
              have hall : ∀ c ∈ rest.takeWhile isDigitChar, isDigitChar c = true :=
                fun c hc => List.mem_takeWhile_imp hc
              have hnolb : '[' ∉ rest.takeWhile isDigitChar := by
                intro hmem
                exact lbrack_not_digit (hall _ hmem) rfl
              have hcpy : expandC sources rest
                  = rest.takeWhile isDigitChar
                    ++ expandC sources (rest.dropWhile isDigitChar) := by
                conv_lhs =>
                  rw [← List.takeWhile_append_dropWhile (p := isDigitChar) (l := rest)]
                exact expandC_append_no_lbrack sources hnolb _
              intro hcon
              apply hnr
              rcases hEd : expandC sources (rest.dropWhile isDigitChar) with - | ⟨u, us⟩
              · -- the expanded remainder is empty, so only digits remain
                rw [hcpy, hEd, List.append_nil, List.dropWhile_eq_nil_iff.2 hall] at hcon
                exact absurd hcon.2 (by simp)
              · have hu : (rest.dropWhile isDigitChar).head? = some u := by
                  rw [← expandC_head sources (rest.dropWhile isDigitChar), hEd]
                  rfl
                have hud : isDigitChar u = false := dropWhile_head?_false hu
                rw [hcpy, hEd, dropWhile_append_all hall, List.dropWhile_cons,
                  if_neg (by simp [hud])] at hcon
                have hur : u = ']' := by simpa using hcon.2
                rw [hu, hur]
          rw [expandC_nomatch sources hm2, ih rest hrest]
        case pos =>
          obtain ⟨hds, htlh⟩ := hm
          by_cases hn : 1 ≤ digitsToNat (rest.takeWhile isDigitChar)
              ∧ digitsToNat (rest.takeWhile isDigitChar) ≤ sources.length
          case pos =>
            rw [expandC_match_in sources hds htlh hn]
            set n := digitsToNat (rest.takeWhile isDigitChar) with hn_def
            set s := (sources.get? (n - 1)).getD emptySource with hs_def
            have hsmem : s ∈ sources := by
              have hlt : n - 1 < sources.length := by omega
              rw [hs_def, List.get?_eq_get hlt]
              exact List.get_mem sources (n - 1) hlt
            have hclean : cleanFields s := hs s hsmem
            set X := expandC sources (rest.dropWhile isDigitChar).tail with hX_def
            have hre : expandedCitation n s ++ X
                = '[' :: ((natDigits n ++ ',' :: citeBody s) ++ X) := by
              rw [expandedCitation_decomp]
              rfl
            rw [hre]
            have hassoc : (natDigits n ++ ',' :: citeBody s) ++ X
                = natDigits n ++ (',' :: (citeBody s ++ X)) := by
              simp [List.append_assoc]
            have hm2 : ¬(((natDigits n ++ ',' :: citeBody s) ++ X).takeWhile isDigitChar ≠ []
                ∧ (((natDigits n ++ ',' :: citeBody s) ++ X).dropWhile
                    isDigitChar).head? = some ']') := by
              rw [hassoc, dropWhile_append_all (natDigits_digits n)]
              intro hcon
              have : (',' :: (citeBody s ++ X)).dropWhile isDigitChar
                  = ',' :: (citeBody s ++ X) := by
                rw [List.dropWhile_cons, if_neg (by decide)]
              rw [this] at hcon
              exact absurd hcon.2 (by simp)
            rw [expandC_nomatch sources hm2,
              expandC_append_no_lbrack sources (citeMiddle_no_lbrack hclean n) X,
              hX_def, ih _ htail]
          case neg =>
            rw [expandC_match_out sources hds htlh hn]
            set ds := rest.takeWhile isDigitChar with hds_def
            set X := expandC sources (rest.dropWhile isDigitChar).tail with hX_def
            have hall : ∀ c ∈ ds, isDigitChar c = true :=
              fun c hc => List.mem_takeWhile_imp hc
            have hre : ('[' :: ds ++ ']' :: X) = '[' :: (ds ++ ']' :: X) := rfl
            rw [hre]
            have htw : (ds ++ ']' :: X).takeWhile isDigitChar = ds := by
              rw [takeWhile_append_all hall, List.takeWhile_cons, if_neg (by decide),
                List.append_nil]
            have hdw : (ds ++ ']' :: X).dropWhile isDigitChar = ']' :: X := by
              rw [dropWhile_append_all hall, List.dropWhile_cons, if_neg (by decide)]
            have hds2 : (ds ++ ']' :: X).takeWhile isDigitChar ≠ [] := by
              rw [htw]; exact hds
            have htlh2 : ((ds ++ ']' :: X).dropWhile isDigitChar).head? = some ']' := by
              rw [hdw]; rfl
            have hn2 : ¬(1 ≤ digitsToNat ((ds ++ ']' :: X).takeWhile isDigitChar)
                ∧ digitsToNat ((ds ++ ']' :: X).takeWhile isDigitChar)
                  ≤ sources.length) := by
              rw [htw]; exact hn
            rw [expandC_match_out sources hds2 htlh2 hn2, htw, hdw]
            rw [show (']' :: X).tail = X from rfl, hX_def, ih _ htail]
            rfl

/-- C6 is false as stated: against a source whose title itself contains the
bare citation `[1]`, expanding `"[1]"` once yields `"[1, s, [1], d]"`, and a
second expansion re-expands the `[1]` that the title injected, so
`expand(expand(text, sources), sources) ≠ expand(text, sources)`. -/
theorem C6_counterexample :
    expand_citations
        (expand_citations "[1]" [⟨some "[1]", some "s", none, some "d", none, none, none⟩])
        [⟨some "[1]", some "s", none, some "d", none, none, none⟩]
      ≠ expand_citations "[1]" [⟨some "[1]", some "s", none, some "d", none, none, none⟩] := by
  decide

/-- C6 (amended): expansion is idempotent provided no source's name, title,
or date field contains an opening bracket (so the replacement text can never
introduce a new bare `[N]` pattern); in particular text with no `[N]`
pattern is left unchanged and an already-expanded citation is never
re-expanded, since its digits are followed by a comma. -/
theorem C6_expand_citations_idempotent (draft : String) (sources : List Source)
    (h : ∀ s ∈ sources, cleanFields s) :
    expand_citations (expand_citations draft sources) sources
      = expand_citations draft sources := by
  show (⟨expandC sources (expandC sources draft.data)⟩ : String)
      = ⟨expandC sources draft.data⟩
  rw [expandC_idem sources h draft.data]

/-- C6 witness: with clean-field sources, expanding twice equals expanding
once on a draft with one in-range and one out-of-range citation. -/
theorem C6_witness :
    (∀ s ∈ [(⟨some "t", some "s", none, some "d", none, none, none⟩ : Source)], cleanFields s)
    ∧ expand_citations
        (expand_citations "cite [1] and [9]."
          [⟨some "t", some "s", none, some "d", none, none, none⟩])
        [⟨some "t", some "s", none, some "d", none, none, none⟩]
      = expand_citations "cite [1] and [9]."
          [⟨some "t", some "s", none, some "d", none, none, none⟩] :=
  ⟨by decide,
    C6_expand_citations_idempotent "cite [1] and [9]."
      [⟨some "t", some "s", none, some "d", none, none, none⟩] (by decide)⟩

/-- Extraction step: a character other than `'['` is skipped. -/
theorem extractC_cons_ne {c : Char} (hc : c ≠ '[') (rest : List Char) :
    extractC (c :: rest) = extractC rest := by
  simp [extractC, extractAux, hc]

/-- Extraction step: at `'['` with no citation match, scanning resumes one
character later. -/
theorem extractC_nomatch {rest : List Char}
    (h : ¬(rest.takeWhile isDigitChar ≠ []
        ∧ (rest.dropWhile isDigitChar).head? = some ']')) :
    extractC ('[' :: rest) = extractC rest := by
  simp only [extractC, extractAux, List.length_cons, if_pos rfl, if_neg h, if_true]

/-- Extraction step: a citation match contributes its number and scanning
resumes after the match. -/
theorem extractC_match {rest : List Char}
    (hds : rest.takeWhile isDigitChar ≠ [])
    (htl : (rest.dropWhile isDigitChar).head? = some ']') :
    extractC ('[' :: rest)
      = digitsToNat (rest.takeWhile isDigitChar)
          :: extractC (rest.dropWhile isDigitChar).tail := by
  have h3 : (rest.dropWhile isDigitChar).tail.length ≤ rest.length := by
    have := length_dropWhile_le isDigitChar rest
    have := List.length_tail (rest.dropWhile isDigitChar)
    omega
  simp only [extractC, extractAux, List.length_cons, if_pos rfl,
    if_pos (And.intro hds htl), if_true]
  rw [extractAux_fuel rest.length _ _ h3 le_rfl]

/-- If every citation number found in the text is out of range, the
expansion scanner reproduces the text verbatim: every match takes the
`match.group(0)` branch. -/
theorem expandC_eq_self_of_out (sources : List Source) :
    ∀ (N : Nat) (l : List Char), l.length ≤ N →
    (∀ n ∈ extractC l, ¬(1 ≤ n ∧ n ≤ sources.length)) →
    expandC sources l = l := by
  intro N
  induction N with
  | zero =>
    intro l hl _
    have hnil : l = [] := List.length_eq_zero.1 (Nat.le_zero.1 hl)
    subst hnil
    rfl
  | succ N ih =>
    intro l hl hout
    cases l with
    | nil => rfl
    | cons c rest =>
      have hrest : rest.length ≤ N := Nat.succ_le_succ_iff.1 (by simpa using hl)
      have htail : (rest.dropWhile isDigitChar).tail.length ≤ N := by
        have := length_dropWhile_le isDigitChar rest
        have := List.length_tail (rest.dropWhile isDigitChar)
        omega
      by_cases hc : c = '['
      case neg =>
        rw [expandC_cons_ne sources hc, ih rest hrest
          (by rw [← extractC_cons_ne hc rest]; exact hout)]
      case pos =>
        subst hc
        by_cases hm : rest.takeWhile isDigitChar ≠ []
            ∧ (rest.dropWhile isDigitChar).head? = some ']'
        case neg =>
          rw [expandC_nomatch sources hm, ih rest hrest
            (by rw [← extractC_nomatch hm]; exact hout)]
        case pos =>
          obtain ⟨hds, htlh⟩ := hm
          have hx : extractC ('[' :: rest)
              = digitsToNat (rest.takeWhile isDigitChar)
                  :: extractC (rest.dropWhile isDigitChar).tail :=
            extractC_match hds htlh
          have hn : ¬(1 ≤ digitsToNat (rest.takeWhile isDigitChar)
              ∧ digitsToNat (rest.takeWhile isDigitChar) ≤ sources.length) := by
            apply hout
            rw [hx]
            exact List.mem_cons_self _ _
          rw [expandC_match_out sources hds htlh hn]
          have htails : ∀ n ∈ extractC (rest.dropWhile isDigitChar).tail,
              ¬(1 ≤ n ∧ n ≤ sources.length) := by
            intro n hmem
            apply hout
            rw [hx]
            exact List.mem_cons_of_mem _ hmem
          rw [ih _ htail htails]
          -- reassemble the original text from the digits and the bracket
          rcases hdd : rest.dropWhile isDigitChar with - | ⟨d, dsx⟩
          · rw [hdd] at htlh
            exact absurd htlh (by simp)
          · have hd : d = ']' := by
              rw [hdd] at htlh
              simpa using htlh
            have : rest = rest.takeWhile isDigitChar ++ ']' :: dsx := by
              conv_lhs =>
                rw [← List.takeWhile_append_dropWhile (p := isDigitChar) (l := rest)]
              rw [hdd, hd]
            conv_rhs => rw [this]
            rfl

/-- `takeWhile` does not look past a prefix containing a failing element. -/
theorem takeWhile_append_not_all {α : Type} {p : α → Bool} :
    ∀ {a : List α}, ¬(∀ c ∈ a, p c = true) → ∀ (b : List α),
    (a ++ b).takeWhile p = a.takeWhile p := by
  intro a
  induction a with
  | nil =>
    intro h _
    exact absurd (fun c hc => absurd hc (List.not_mem_nil c)) h
  | cons c a2 ih =>
    intro h b
    by_cases hc : p c
    · have h2 : ¬(∀ d ∈ a2, p d = true) := fun hall =>
        h (fun d hd => by
          rcases List.mem_cons.1 hd with rfl | hd2
          · exact hc
          · exact hall d hd2)
      rw [List.cons_append, List.takeWhile_cons, if_pos hc, List.takeWhile_cons,
        if_pos hc, ih h2 b]
    · rw [List.cons_append, List.takeWhile_cons, if_neg hc, List.takeWhile_cons,
        if_neg hc]

/-- `dropWhile` stops inside a prefix containing a failing element. -/
theorem dropWhile_append_not_all {α : Type} {p : α → Bool} :
    ∀ {a : List α}, ¬(∀ c ∈ a, p c = true) → ∀ (b : List α),
    (a ++ b).dropWhile p = a.dropWhile p ++ b := by
  intro a
  induction a with
  | nil =>
    intro h _
    exact absurd (fun c hc => absurd hc (List.not_mem_nil c)) h
  | cons c a2 ih =>
    intro h b
    by_cases hc : p c
    · have h2 : ¬(∀ d ∈ a2, p d = true) := fun hall =>
        h (fun d hd => by
          rcases List.mem_cons.1 hd with rfl | hd2
          · exact hc
          · exact hall d hd2)
      rw [List.cons_append, List.dropWhile_cons, if_pos hc, List.dropWhile_cons,
        if_pos hc, ih h2 b]
    · rw [List.cons_append, List.dropWhile_cons, if_neg hc, List.dropWhile_cons,
        if_neg hc, List.cons_append]

/-- An infix of a list is an infix of the list with one element prepended. -/
theorem isInfix_cons {α : Type} {m l : List α} (c : α) (h : m.IsInfix l) :
    m.IsInfix (c :: l) := by
  obtain ⟨s, t, hst⟩ := h
  exact ⟨c :: s, t, by rw [← hst]; rfl⟩

/-- An infix of a list is an infix of the list with anything prepended. -/
theorem isInfix_append_left {α : Type} {m l : List α} (X : List α) (h : m.IsInfix l) :
    m.IsInfix (X ++ l) := by
  obtain ⟨s, t, hst⟩ := h
  exact ⟨X ++ s, t, by rw [← hst]; simp [List.append_assoc]⟩

/-- A used record of the tracking loop carries exactly the 1-based position
of that record in the numbered list handed to the generator. -/
theorem trackAux_used_mem (used : List Nat) :
    ∀ (i : Nat) (l : List Source) (s : Source) (n : Nat),
    (s, n) ∈ (trackAux used i l).1 → (n, s) ∈ List.enumFrom i l := by
  intro i l
  induction l generalizing i with
  | nil => intro s n h; simp [trackAux] at h
  | cons hd t ih =>
    intro s n h
    rw [List.enumFrom_cons]
    by_cases hi : i ∈ used
    · simp only [trackAux, if_pos hi] at h
      rcases List.mem_cons.1 h with heq | h2
      · obtain ⟨rfl, rfl⟩ := Prod.mk.injEq .. ▸ heq
        exact List.mem_cons_self _ _
      · exact List.mem_cons_of_mem _ (ih (i + 1) s n h2)
    · simp only [trackAux, if_neg hi] at h
      exact List.mem_cons_of_mem _ (ih (i + 1) s n h)

/-- The citation number attached to any used record is the record's 1-based
position, so it always lies in `1..len`. -/
theorem trackAux_used_bounds (used : List Nat) (i : Nat) (l : List Source)
    (s : Source) (n : Nat) (h : (s, n) ∈ (trackAux used i l).1) :
    i ≤ n ∧ n < i + l.length := by
  have h2 := List.mem_enumFrom (trackAux_used_mem used i l s n h)
  exact ⟨h2.1, h2.2.1⟩

/-- Per-occurrence preservation: every bracketed digit run in the input
whose number is out of range survives expansion verbatim, whatever else the
text contains.  The scan reaches each such occurrence intact — no match can
straddle its opening bracket, since a match's digits and closing bracket
cannot contain `'['` — and then re-emits it via the `match.group(0)`
branch. -/
theorem expandC_infix_of_out (sources : List Source) (ds post : List Char)
    (hds : ds ≠ []) (hdigits : ∀ c ∈ ds, isDigitChar c = true)
    (hn : ¬(1 ≤ digitsToNat ds ∧ digitsToNat ds ≤ sources.length)) :
    ∀ (N : Nat) (pre : List Char),
    (pre ++ ('[' :: ds ++ ']' :: post)).length ≤ N →
    ('[' :: ds ++ [']']).IsInfix
      (expandC sources (pre ++ ('[' :: ds ++ ']' :: post))) := by
  intro N
  induction N with
  | zero =>
    intro pre h
    exfalso
    simp only [List.length_append, List.length_cons] at h
    omega
  | succ N ih =>
    intro pre hlen
    cases pre with
    | nil =>
      show ('[' :: ds ++ [']']).IsInfix
        (expandC sources ('[' :: (ds ++ ']' :: post)))
      have htw : (ds ++ ']' :: post).takeWhile isDigitChar = ds := by
        rw [takeWhile_append_all hdigits, List.takeWhile_cons, if_neg (by decide),
          List.append_nil]
      have hdw : (ds ++ ']' :: post).dropWhile isDigitChar = ']' :: post := by
        rw [dropWhile_append_all hdigits, List.dropWhile_cons, if_neg (by decide)]
      have hds2 : (ds ++ ']' :: post).takeWhile isDigitChar ≠ [] := by
        rw [htw]; exact hds
      have htlh2 : ((ds ++ ']' :: post).dropWhile isDigitChar).head? = some ']' := by
        rw [hdw]; rfl
      have hn2 : ¬(1 ≤ digitsToNat ((ds ++ ']' :: post).takeWhile isDigitChar)
          ∧ digitsToNat ((ds ++ ']' :: post).takeWhile isDigitChar)
            ≤ sources.length) := by
        rw [htw]; exact hn
      rw [expandC_match_out sources hds2 htlh2 hn2, htw, hdw]
      exact ⟨[], expandC sources (']' :: post).tail, by simp⟩
    | cons c pre2 =>
      have hlrest : (pre2 ++ ('[' :: ds ++ ']' :: post)).length ≤ N := by
        simp only [List.cons_append, List.length_cons, List.length_append] at hlen ⊢
        omega
      by_cases hc : c = '['
      case neg =>
        show ('[' :: ds ++ [']']).IsInfix
          (expandC sources (c :: (pre2 ++ ('[' :: ds ++ ']' :: post))))
        rw [expandC_cons_ne sources hc]
        exact isInfix_cons c (ih pre2 hlrest)
      case pos =>
        subst hc
        show ('[' :: ds ++ [']']).IsInfix
          (expandC sources ('[' :: (pre2 ++ ('[' :: ds ++ ']' :: post))))
        by_cases hall : ∀ x ∈ pre2, isDigitChar x = true
        · -- the preceding digits run straight into this occurrence's own
          -- bracket, so no match starts here
          have hdw2 : (pre2 ++ ('[' :: ds ++ ']' :: post)).dropWhile isDigitChar
              = '[' :: (ds ++ ']' :: post) := by
            rw [dropWhile_append_all hall, List.cons_append, List.dropWhile_cons,
              if_neg (by decide)]
          have hm : ¬((pre2 ++ ('[' :: ds ++ ']' :: post)).takeWhile isDigitChar ≠ []
              ∧ ((pre2 ++ ('[' :: ds ++ ']' :: post)).dropWhile
                  isDigitChar).head? = some ']') := by
            intro hcon
            have h2 := hcon.2
            rw [hdw2] at h2
            simp only [List.head?_cons, Option.some.injEq] at h2
            exact absurd h2 (by decide)
          rw [expandC_nomatch sources hm]
          exact isInfix_cons '[' (ih pre2 hlrest)
        · have htw : (pre2 ++ ('[' :: ds ++ ']' :: post)).takeWhile isDigitChar
              = pre2.takeWhile isDigitChar := takeWhile_append_not_all hall _
          have hdw : (pre2 ++ ('[' :: ds ++ ']' :: post)).dropWhile isDigitChar
              = pre2.dropWhile isDigitChar ++ ('[' :: ds ++ ']' :: post) :=
            dropWhile_append_not_all hall _
          have hne : pre2.dropWhile isDigitChar ≠ [] := fun h0 =>
            hall (List.dropWhile_eq_nil_iff.1 h0)
          obtain ⟨e, pre3, he⟩ := List.exists_cons_of_ne_nil hne
          by_cases hm : (pre2 ++ ('[' :: ds ++ ']' :: post)).takeWhile
                isDigitChar ≠ []
              ∧ ((pre2 ++ ('[' :: ds ++ ']' :: post)).dropWhile
                  isDigitChar).head? = some ']'
          case neg =>
            rw [expandC_nomatch sources hm]
            exact isInfix_cons '[' (ih pre2 hlrest)
          case pos =>
            -- the match here ends inside `pre2`: its closing bracket is the
            -- head of the remainder of `pre2`
            have htt : ((pre2 ++ ('[' :: ds ++ ']' :: post)).dropWhile
                isDigitChar).tail = pre3 ++ ('[' :: ds ++ ']' :: post) := by
              rw [hdw, he]
              rfl
            have htt_len : (((pre2 ++ ('[' :: ds ++ ']' :: post)).dropWhile
                isDigitChar).tail).length ≤ N := by
              have h1 := length_dropWhile_le isDigitChar
                (pre2 ++ ('[' :: ds ++ ']' :: post))
              have h2 := List.length_tail
                ((pre2 ++ ('[' :: ds ++ ']' :: post)).dropWhile isDigitChar)
              omega
            have hinf := ih pre3 (htt ▸ htt_len)
            by_cases hr : 1 ≤ digitsToNat
                ((pre2 ++ ('[' :: ds ++ ']' :: post)).takeWhile isDigitChar)
                ∧ digitsToNat ((pre2 ++ ('[' :: ds ++ ']' :: post)).takeWhile
                    isDigitChar) ≤ sources.length
            · rw [expandC_match_in sources hm.1 hm.2 hr, htt]
              exact isInfix_append_left _ hinf
            · rw [expandC_match_out sources hm.1 hm.2 hr, htt]
              simpa [List.append_assoc] using isInfix_append_left
                ('[' :: (pre2 ++ ('[' :: ds ++ ']' :: post)).takeWhile isDigitChar
                  ++ [']']) hinf

/-- C7: for every citation number in the text that is out of range (below 1
or above the source count): the occurrence `[N]` survives expansion
verbatim — for every decomposition of the draft around a bracketed digit
run with out-of-range value, that bracketed run is an infix of the expanded
output, and no index error arises since the range guard precedes the
indexing — and tracking never places a record in `sources_used` on account
of `N`, since used records carry exactly their 1-based in-range position.
When every citation in the draft is out of range, the whole text is
reproduced unchanged and nothing is marked used. -/
theorem C7_out_of_range_per_occurrence (draft : String) (sources : List Source) :
    (∀ pre ds post, draft.data = pre ++ ('[' :: ds ++ ']' :: post) →
        ds ≠ [] → (∀ c ∈ ds, isDigitChar c = true) →
        (digitsToNat ds < 1 ∨ sources.length < digitsToNat ds) →
        ('[' :: ds ++ [']']).IsInfix (expand_citations draft sources).data)
    ∧ (∀ n, n < 1 ∨ sources.length < n →
        ∀ s : Source, (s, n) ∉ (track_source_usage draft sources).sources_used)
    ∧ ((∀ n ∈ extract_source_numbers draft, n < 1 ∨ sources.length < n) →
        expand_citations draft sources = draft
        ∧ (track_source_usage draft sources).sources_used = []) := by
  refine ⟨?_, ?_, ?_⟩
  · intro pre ds post hdec hds hdig hr
    show ('[' :: ds ++ [']']).IsInfix (expandC sources draft.data)
    rw [hdec]
    exact expandC_infix_of_out sources ds post hds hdig (by omega) _ pre le_rfl
  · intro n hr s hmem
    have hb := trackAux_used_bounds (extract_source_numbers draft).dedup 1 sources
      s n hmem
    omega
  · intro h
    constructor
    · show (⟨expandC sources draft.data⟩ : String) = draft
      rw [expandC_eq_self_of_out sources draft.data.length draft.data le_rfl
        (by intro n hn; have := h n hn; omega)]
    · apply List.length_eq_zero.1
      rw [show (track_source_usage draft sources).sources_used
            = (trackAux (extract_source_numbers draft).dedup 1 sources).1 from rfl,
        trackAux_fst_length]
      rw [List.filter_eq_nil_iff.2 ?_]
      · rfl
      intro a ha
      simp only [List.mem_range'_1] at ha
      simp only [decide_eq_true_eq, List.mem_dedup]
      intro hmem
      have := h a hmem
      omega

/-- C7 witness: the mixed draft `"[1] and [7]"` against three sources — the
out-of-range `[7]` survives expansion verbatim (while `[1]` expands) and no
record is used on account of 7 — plus the spec's all-out-of-range example
`"[9]"`, reproduced unchanged. -/
theorem C7_witness :
    ("[1] and [7]" : String).data
        = ("[1] and " : String).data ++ ('[' :: ['7'] ++ ']' :: [])
    ∧ ('[' :: ['7'] ++ [']']).IsInfix
        (expand_citations "[1] and [7]" [emptySource, emptySource, emptySource]).data
    ∧ (∀ s : Source, (s, 7) ∉ (track_source_usage "[1] and [7]"
        [emptySource, emptySource, emptySource]).sources_used)
    ∧ expand_citations "[9]" [emptySource, emptySource, emptySource] = "[9]" := by
  refine ⟨by decide, ?_, ?_, ?_⟩
  · exact (C7_out_of_range_per_occurrence "[1] and [7]"
      [emptySource, emptySource, emptySource]).1
      (("[1] and " : String).data) ['7'] [] (by decide) (by decide) (by decide)
      (by decide)
  · exact (C7_out_of_range_per_occurrence "[1] and [7]"
      [emptySource, emptySource, emptySource]).2.1 7 (by decide)
  · exact ((C7_out_of_range_per_occurrence "[9]"
      [emptySource, emptySource, emptySource]).2.2 (by decide)).1


/-- The fusion sort key `x.get("relevance_score") or 0` of outline_agent.py
(lines 103 and 268): a missing or `None` score counts as 0. -/
def sortKey (s : Source) : ℚ := (s.relevance_score).getD 0

/-- Stable insertion into a descending-sorted list: the inserted element,
which originates earlier in the input than everything already inserted,
goes before the first element whose key is not larger. -/
def insertDesc {α : Type} (key : α → ℚ) (x : α) : List α → List α
  | [] => [x]
  | y :: ys => if key y ≤ key x then x :: y :: ys else y :: insertDesc key x ys

/-- Stable descending sort by a rational key.  Python's
`list.sort(key=..., reverse=True)` is a stable descending sort, and the
output of a stable sort is unique (keys descending, ties in input order),
so this insertion sort is an exact model; stability is proved below in
`sortDesc_stable`. -/
def sortDesc {α : Type} (key : α → ℚ) : List α → List α
  | [] => []
  | x :: xs => insertDesc key x (sortDesc key xs)

/-- The fused source list of `generate_outline_with_agent`
(outline_agent.py lines 266-268): concatenate archive and web sources and
stably sort descending on `relevance_score or 0`. -/
def fuse_sources (archive_sources web_sources : List Source) : List Source :=
  sortDesc sortKey (archive_sources ++ web_sources)

/-- The prioritized web injection of `generate_draft_with_agent`
(draft_agent.py line 201): `sources = web_sources + sources`, with no
subsequent sort. -/
def combineDraftSources (web_sources sources : List Source) : List Source :=
  web_sources ++ sources

/-- The 1-based numbering `enumerate(sources, 1)` used both by
`format_sources_for_prompt` (draft_agent.py line 51) and by the tracking
loop (draft_validator.py line 155). -/
def numberSources (sources : List Source) : List (Nat × Source) :=
  List.enumFrom 1 sources

/-- Insertion adds exactly the inserted element. -/
theorem insertDesc_perm {α : Type} (key : α → ℚ) (x : α) (l : List α) :
    (insertDesc key x l).Perm (x :: l) := by
  induction l with
  | nil => exact List.Perm.refl _
  | cons y ys ih =>
    rw [insertDesc]
    split
    · exact List.Perm.refl _
    · exact (ih.cons y).trans (List.Perm.swap x y ys)

/-- The sort permutes its input. -/
theorem sortDesc_perm {α : Type} (key : α → ℚ) (l : List α) :
    (sortDesc key l).Perm l := by
  induction l with
  | nil => exact List.Perm.refl _
  | cons x xs ih => exact (insertDesc_perm key x (sortDesc key xs)).trans (ih.cons x)

/-- Insertion preserves the descending order. -/
theorem insertDesc_sorted {α : Type} (key : α → ℚ) (x : α) {l : List α}
    (h : List.Pairwise (fun a b => key b ≤ key a) l) :
    List.Pairwise (fun a b => key b ≤ key a) (insertDesc key x l) := by
  induction l with
  | nil => simp [insertDesc]
  | cons y ys ih =>
    rw [insertDesc]
    rcases h with - | ⟨hy, hys⟩
    split
    case isTrue hk =>
      refine List.Pairwise.cons ?_ (List.Pairwise.cons hy hys)
      intro z hz
      rcases List.mem_cons.1 hz with rfl | hz
      · exact hk
      · exact le_trans (hy z hz) hk
    case isFalse hk =>
      refine List.Pairwise.cons ?_ (ih hys)
      intro z hz
      rcases List.mem_cons.1 ((insertDesc_perm key x ys).mem_iff.1 hz) with rfl | hz2
      · exact le_of_not_le hk
      · exact hy z hz2

/-- The sort output is descending in the key. -/
theorem sortDesc_sorted {α : Type} (key : α → ℚ) (l : List α) :
    List.Pairwise (fun a b => key b ≤ key a) (sortDesc key l) := by
  induction l with
  | nil => simp [sortDesc]
  | cons x xs ih => exact insertDesc_sorted key x ih

/-- Sorting index-value pairs by the value key and projecting the values is
sorting the values. -/
theorem insertDesc_map_snd {α : Type} (key : α → ℚ) (x : Nat × α)
    (l : List (Nat × α)) :
    (insertDesc (fun p => key p.2) x l).map Prod.snd
      = insertDesc key x.2 (l.map Prod.snd) := by
  induction l with
  | nil => rfl
  | cons y ys ih =>
    rw [insertDesc, List.map_cons, insertDesc]
    split
    · rfl
    · rw [List.map_cons, ih]

/-- Sorting enumerated pairs and dropping the indices gives the plain
sort. -/
theorem sortDesc_map_snd {α : Type} (key : α → ℚ) (l : List (Nat × α)) :
    (sortDesc (fun p => key p.2) l).map Prod.snd = sortDesc key (l.map Prod.snd) := by
  induction l with
  | nil => rfl
  | cons x xs ih => rw [sortDesc, List.map_cons, sortDesc, ← ih, insertDesc_map_snd]

/-- Every index in an enumeration from `m` is at least `m`. -/
theorem enumFrom_fst_le {α : Type} : ∀ {m : Nat} {l : List α} {p : Nat × α},
    p ∈ List.enumFrom m l → m ≤ p.1 := by
  intro m l
  induction l generalizing m with
  | nil => intro p hp; simp at hp
  | cons x t ih =>
    intro p hp
    rw [List.enumFrom_cons] at hp
    rcases List.mem_cons.1 hp with rfl | hp
    · exact le_rfl
    · exact le_trans (Nat.le_succ m) (ih hp)

/-- Enumeration indices are strictly increasing. -/
theorem enumFrom_fst_pairwise {α : Type} (m : Nat) (l : List α) :
    List.Pairwise (fun p q => p.1 < q.1) (List.enumFrom m l) := by
  induction l generalizing m with
  | nil => simp
  | cons x t ih =>
    rw [List.enumFrom_cons]
    refine List.Pairwise.cons ?_ (ih (m + 1))
    intro p hp
    exact lt_of_lt_of_le (Nat.lt_succ_self m) (enumFrom_fst_le hp)

/-- Stable order on index-value pairs: strictly larger key first, ties in
index order. -/
def stableRel {α : Type} (key : α → ℚ) (p q : Nat × α) : Prop :=
  key q.2 < key p.2 ∨ (key p.2 = key q.2 ∧ p.1 < q.1)

/-- Inserting a pair whose index precedes everything in a sorted stable list
keeps the list stable: the pair lands before every element with an equal or
smaller key. -/
theorem insertDesc_stable {α : Type} (key : α → ℚ) (x : Nat × α) :
    ∀ {s : List (Nat × α)},
    List.Pairwise (fun a b => key b.2 ≤ key a.2) s →
    List.Pairwise (stableRel key) s →
    (∀ y ∈ s, x.1 < y.1) →
    List.Pairwise (stableRel key) (insertDesc (fun p => key p.2) x s) := by
  intro s
  induction s with
  | nil => intro _ _ _; simp [insertDesc, List.pairwise_singleton]
  | cons y ys ih =>
    intro hsort hstab hidx
    rcases hsort with - | ⟨hy, hys⟩
    rcases hstab with - | ⟨hsy, hstys⟩
    rw [insertDesc]
    split
    case isTrue hk =>
      refine List.Pairwise.cons ?_ (List.Pairwise.cons hsy hstys)
      intro z hz
      have hzle : key z.2 ≤ key x.2 := by
        rcases List.mem_cons.1 hz with rfl | hz2
        · exact hk
        · exact le_trans (hy z hz2) hk
      rcases lt_or_eq_of_le hzle with hlt | heq
      · exact Or.inl hlt
      · exact Or.inr ⟨heq.symm, hidx z hz⟩
    case isFalse hk =>
      refine List.Pairwise.cons ?_ (ih hys hstys fun z hz =>
        hidx z (List.mem_cons_of_mem y hz))
      intro z hz
      rcases List.mem_cons.1 ((insertDesc_perm (fun p => key p.2) x ys).mem_iff.1 hz)
        with rfl | hz2
      · exact Or.inl (lt_of_not_le hk)
      · exact hsy z hz2

/-- Sorting a list of pairs with strictly increasing indices is stable. -/
theorem sortDesc_stable {α : Type} (key : α → ℚ) :
    ∀ (l : List (Nat × α)), List.Pairwise (fun p q => p.1 < q.1) l →
    List.Pairwise (stableRel key) (sortDesc (fun p => key p.2) l) := by
  intro l
  induction l with
  | nil => intro _; simp [sortDesc]
  | cons x xs ih =>
    intro hl
    rcases hl with - | ⟨hx, hxs⟩
    rw [sortDesc]
    refine insertDesc_stable key x (sortDesc_sorted _ _) (ih hxs) ?_
    intro y hy
    exact hx y ((sortDesc_perm (fun p => key p.2) xs).mem_iff.1 hy)

/-- C9: the fused list of `generate_outline_with_agent` presents citation
numbers exactly `1..N`, each once (the 1-based enumeration of the fused
list), is a permutation of the concatenated archive and web records
(interleaved by score, not grouped by kind), is descending in
`relevance_score or 0`, is the index-forgetting projection of the stable
sort of the enumerated input (so ties keep original relative order), and
the tracking loop attaches to each used record exactly its position in that
numbering. -/
theorem C9_fused_numbering (archive_sources web_sources : List Source) :
    ((numberSources (fuse_sources archive_sources web_sources)).map Prod.fst
        = List.range' 1 (fuse_sources archive_sources web_sources).length)
    ∧ (fuse_sources archive_sources web_sources).Perm (archive_sources ++ web_sources)
    ∧ List.Pairwise (fun a b => sortKey b ≤ sortKey a)
        (fuse_sources archive_sources web_sources)
    ∧ (sortDesc (fun p => sortKey p.2) ((archive_sources ++ web_sources).enum)).map
        Prod.snd = fuse_sources archive_sources web_sources
    ∧ List.Pairwise (stableRel sortKey)
        (sortDesc (fun p => sortKey p.2) ((archive_sources ++ web_sources).enum))
    ∧ ∀ (draft : String) (s : Source) (n : Nat),
        (s, n) ∈ (track_source_usage draft
            (fuse_sources archive_sources web_sources)).sources_used →
        (n, s) ∈ numberSources (fuse_sources archive_sources web_sources) := by
  refine ⟨List.enumFrom_map_fst 1 _, sortDesc_perm sortKey _, sortDesc_sorted sortKey _,
    ?_, sortDesc_stable sortKey _ (enumFrom_fst_pairwise 0 _), ?_⟩
  · rw [sortDesc_map_snd, List.enum_map_snd]
    rfl
  · intro draft s n h
    exact trackAux_used_mem (extract_source_numbers draft).dedup 1 _ s n h

/-- C9 witness: fusing a score-9 archive source with a score-1 web source
puts the archive source first, a draft citing `[1]` marks it used with
citation number 1, and that pair indeed appears in the 1-based
numbering. -/
theorem C9_witness :
    ((⟨some "a", some "arch", some "archive", none, none, some (9 : ℚ), none⟩, 1)
        ∈ (track_source_usage "[1]"
            (fuse_sources
              [⟨some "a", some "arch", some "archive", none, none, some (9 : ℚ), none⟩]
              [⟨some "w", some "web", some "web", none, none, some (1 : ℚ), none⟩])).sources_used)
    ∧ (1, (⟨some "a", some "arch", some "archive", none, none, some (9 : ℚ), none⟩ : Source))
        ∈ numberSources (fuse_sources
            [⟨some "a", some "arch", some "archive", none, none, some (9 : ℚ), none⟩]
            [⟨some "w", some "web", some "web", none, none, some (1 : ℚ), none⟩]) :=
  ⟨by decide,
    (C9_fused_numbering
      [⟨some "a", some "arch", some "archive", none, none, some (9 : ℚ), none⟩]
      [⟨some "w", some "web", some "web", none, none, some (1 : ℚ), none⟩]).2.2.2.2.2
      "[1]" ⟨some "a", some "arch", some "archive", none, none, some (9 : ℚ), none⟩ 1
      (by decide)⟩

/-- C3 is false as stated for the `enable_web_search` path of draft
generation: there the prepended list is used without any re-sort, so with a
web record of score 0.5 and an archive record of score 0.9 the final order
is not the descending-score order that sorting would give. -/
theorem C3_counterexample :
    combineDraftSources
        [⟨some "w", some "web", some "web", none, none, some (1 : ℚ), none⟩]
        [⟨some "a", some "arch", some "archive", none, none, some (9 : ℚ), none⟩]
      ≠ sortDesc sortKey
        (combineDraftSources
          [⟨some "w", some "web", some "web", none, none, some (1 : ℚ), none⟩]
          [⟨some "a", some "arch", some "archive", none, none, some (9 : ℚ), none⟩]) := by
  decide

/-- C3 (amended): in the draft path the prepend is final — the combined
list is exactly the web records followed by the archive records, with no
re-sort.  Where sorting does follow the concatenation (the outline fusion),
sorting by score determines the final order: when all scores are distinct
the sorted output is independent of which side was prepended, so prepending
can only influence the relative order of records with equal scores. -/
theorem C3_prepend_only_breaks_ties (web_sources archive_sources : List Source)
    (hdistinct : List.Pairwise (fun a b => sortKey a ≠ sortKey b)
      (web_sources ++ archive_sources)) :
    combineDraftSources web_sources archive_sources = web_sources ++ archive_sources
    ∧ sortDesc sortKey (web_sources ++ archive_sources)
        = sortDesc sortKey (archive_sources ++ web_sources) := by
  refine ⟨rfl, ?_⟩
  have hsymm : ∀ {x y : Source}, sortKey x ≠ sortKey y → sortKey y ≠ sortKey x :=
    fun h => h.symm
  have hperm : (sortDesc sortKey (web_sources ++ archive_sources)).Perm
      (sortDesc sortKey (archive_sources ++ web_sources)) :=
    ((sortDesc_perm sortKey _).trans List.perm_append_comm).trans
      (sortDesc_perm sortKey _).symm
  have hne1 : List.Pairwise (fun a b => sortKey a ≠ sortKey b)
      (sortDesc sortKey (web_sources ++ archive_sources)) :=
    ((sortDesc_perm sortKey _).pairwise_iff hsymm).2 hdistinct
  have hne2 : List.Pairwise (fun a b => sortKey a ≠ sortKey b)
      (sortDesc sortKey (archive_sources ++ web_sources)) :=
    (hperm.pairwise_iff hsymm).1 hne1
  have hstrict : ∀ {l : List Source},
      List.Pairwise (fun a b => sortKey b ≤ sortKey a) l →
      List.Pairwise (fun a b => sortKey a ≠ sortKey b) l →
      List.Sorted (fun a b => sortKey b < sortKey a) l := by
    intro l h1 h2
    exact (h1.and h2).imp fun hab => lt_of_le_of_ne hab.1 (fun he => hab.2 he.symm)
  haveI : IsAntisymm Source (fun a b => sortKey b < sortKey a) :=
    ⟨fun a b h1 h2 => absurd (lt_trans h1 h2) (lt_irrefl _)⟩
  exact List.eq_of_perm_of_sorted hperm
    (hstrict (sortDesc_sorted sortKey _) hne1)
    (hstrict (sortDesc_sorted sortKey _) hne2)

/-- C3 witness: two distinct-score singletons; sorting after prepending in
either order gives the same descending list. -/
theorem C3_witness :
    (List.Pairwise (fun a b => sortKey a ≠ sortKey b)
      ([⟨some "w", some "web", some "web", none, none, some (1 : ℚ), none⟩]
        ++ [⟨some "a", some "arch", some "archive", none, none, some (9 : ℚ), none⟩]))
    ∧ sortDesc sortKey
        ([⟨some "w", some "web", some "web", none, none, some (1 : ℚ), none⟩]
          ++ [⟨some "a", some "arch", some "archive", none, none, some (9 : ℚ), none⟩])
      = sortDesc sortKey
        ([⟨some "a", some "arch", some "archive", none, none, some (9 : ℚ), none⟩]
          ++ [⟨some "w", some "web", some "web", none, none, some (1 : ℚ), none⟩]) :=
  ⟨by decide,
    (C3_prepend_only_breaks_ties
      [⟨some "w", some "web", some "web", none, none, some (1 : ℚ), none⟩]
      [⟨some "a", some "arch", some "archive", none, none, some (9 : ℚ), none⟩]
      (by decide)).2⟩

/-- A retrieval result node as consumed by `filter_by_relevance`
(retriever.py lines 88-120): the only attribute the function reads is
`score`, via `getattr(node, 'score', 0)`, so a node is its optional score
plus an opaque payload distinguishing nodes. -/
structure SNode where
  payload : String
  score : Option ℚ
deriving DecidableEq

/-- `getattr(node, 'score', 0)`: an absent score counts as 0. -/
def nodeScore (n : SNode) : ℚ := n.score.getD 0

/-- `MIN_RELEVANCE_SCORE` default 0.75 (config.py line 22). -/
def MIN_RELEVANCE_SCORE : ℚ := 3 / 4

/-- `HIGH_RELEVANCE_THRESHOLD` default 0.85 (config.py line 23). -/
def HIGH_RELEVANCE_THRESHOLD : ℚ := 17 / 20

/-- Python's `max` on a list: raises `ValueError` on an empty list, embedded
as `Except`. -/
def pyMax (l : List ℚ) : Except String ℚ :=
  match l with
  | [] => .error "ValueError: max() arg is an empty sequence"
  | x :: xs => .ok (xs.foldl max x)

/-- Fixed-point decimal rendering to two places with round-half-to-even,
modelling the Python f-string format `{x:.2f}` used in the quality
warnings. -/
def round2 (q : ℚ) : Int :=
  let x := q * 100
  let f := ⌊x⌋
  if x - f < 1 / 2 then f
  else if 1 / 2 < x - f then f + 1
  else if f % 2 = 0 then f else f + 1

/-- Render a rational as `d.dd`, the shape produced by `{x:.2f}`. -/
def fmt2 (q : ℚ) : String :=
  let n := round2 q
  let m := n.natAbs
  (if n < 0 then "-" else "")
    ++ toString (m / 100) ++ "."
    ++ (if m % 100 < 10 then "0" else "") ++ toString (m % 100)

/-- The warning for an empty candidate list (retriever.py line 103). -/
def noSourcesWarning : String := "No sources found in knowledge base"

/-- The warning when every candidate scores below the threshold
(retriever.py line 111). -/
def belowThresholdWarning (max_score min_score : ℚ) : String :=
  "No relevant sources found (best match score: " ++ fmt2 max_score
    ++ ", threshold: " ++ fmt2 min_score ++ ")"

/-- The warning when the kept candidates are only marginally relevant
(retriever.py line 118). -/
def marginalWarning (best_score : ℚ) : String :=
  "Limited relevant content found (best score: " ++ fmt2 best_score
    ++ "). Results may be tangential to query."

/-- `filter_by_relevance(source_nodes, min_score)` of retriever.py: the
`min_score=None` default falls back to `MIN_RELEVANCE_SCORE`; the two
`max(...)` calls are fallible in Python, so the embedding threads them
through `Except`. -/
def filter_by_relevance (source_nodes : List SNode) (min_score? : Option ℚ) :
    Except String (List SNode × Option String) :=
  let min_score := min_score?.getD MIN_RELEVANCE_SCORE
  if source_nodes.isEmpty then .ok ([], some noSourcesWarning)
  else
    let filtered_nodes := source_nodes.filter (fun n => min_score ≤ nodeScore n)
    if filtered_nodes.isEmpty then
      match pyMax (source_nodes.map nodeScore) with
      | .error e => .error e
      | .ok max_score => .ok ([], some (belowThresholdWarning max_score min_score))
    else
      match pyMax (filtered_nodes.map nodeScore) with
      | .error e => .error e
      | .ok best_score =>
        .ok (filtered_nodes,
          if best_score < HIGH_RELEVANCE_THRESHOLD then some (marginalWarning best_score)
          else none)

/-- `max` of a nonempty list never raises. -/
theorem pyMax_ok {l : List ℚ} (h : l ≠ []) : ∃ q, pyMax l = .ok q := by
  cases l with
  | nil => exact absurd rfl h
  | cons x xs => exact ⟨xs.foldl max x, rfl⟩

/-- C4: `filter_by_relevance` never raises — for every input it returns
normally, and the kept list is exactly the candidates whose score, with an
absent score counting as 0, is at least the threshold (the threshold
defaulting to `MIN_RELEVANCE_SCORE` when not supplied). -/
theorem C4_filter_by_relevance_total (source_nodes : List SNode) (min_score? : Option ℚ) :
    ∃ w, filter_by_relevance source_nodes min_score?
      = .ok (source_nodes.filter
          (fun n => min_score?.getD MIN_RELEVANCE_SCORE ≤ n.score.getD 0), w) := by
  unfold filter_by_relevance
  by_cases hempty : source_nodes.isEmpty
  · rw [if_pos hempty]
    rw [List.isEmpty_iff] at hempty
    subst hempty
    exact ⟨some noSourcesWarning, rfl⟩
  · rw [if_neg hempty]
    by_cases hf : (source_nodes.filter
        (fun n => min_score?.getD MIN_RELEVANCE_SCORE ≤ nodeScore n)).isEmpty
    · rw [if_pos hf]
      obtain ⟨q, hq⟩ := pyMax_ok (l := source_nodes.map nodeScore) (fun hnil =>
        hempty (List.isEmpty_iff.2 (List.map_eq_nil_iff.1 hnil)))
      rw [hq]
      rw [List.isEmpty_iff] at hf
      rw [show (fun n => decide (min_score?.getD MIN_RELEVANCE_SCORE ≤ n.score.getD 0))
            = (fun n => decide (min_score?.getD MIN_RELEVANCE_SCORE ≤ nodeScore n))
          from rfl, hf]
      exact ⟨some (belowThresholdWarning q (min_score?.getD MIN_RELEVANCE_SCORE)), rfl⟩
    · rw [if_neg hf]
      obtain ⟨q, hq⟩ := pyMax_ok (fun hnil =>
        hf (List.isEmpty_iff.2 (List.map_eq_nil_iff.1 hnil)))
      rw [hq]
      exact ⟨if q < HIGH_RELEVANCE_THRESHOLD then some (marginalWarning q) else none, rfl⟩

/-- C8: `filter_by_relevance` keeps exactly the candidates scoring at least
`min_score` (a score equal to the threshold is kept), and its outcome falls
into exactly the spec's quality cases: empty input gives the empty kept
list and the "No sources found in knowledge base" warning; a nonempty input
whose kept list is empty — equivalently, all scores strictly below the
threshold — gives a warning naming the best score seen and the threshold;
a nonempty kept list with best score below the high threshold gives the
"Limited relevant content found" warning; otherwise the warning is None. -/
theorem C8_filter_by_relevance_cases (source_nodes : List SNode) (min_score? : Option ℚ) :
    (∀ n, n ∈ source_nodes.filter
          (fun n => min_score?.getD MIN_RELEVANCE_SCORE ≤ n.score.getD 0)
        ↔ n ∈ source_nodes ∧ min_score?.getD MIN_RELEVANCE_SCORE ≤ n.score.getD 0)
    ∧ (source_nodes.filter
          (fun n => min_score?.getD MIN_RELEVANCE_SCORE ≤ n.score.getD 0) = []
        ↔ ∀ n ∈ source_nodes, n.score.getD 0 < min_score?.getD MIN_RELEVANCE_SCORE)
    ∧ (source_nodes = [] →
        filter_by_relevance source_nodes min_score? = .ok ([], some noSourcesWarning))
    ∧ (source_nodes ≠ [] →
        source_nodes.filter
          (fun n => min_score?.getD MIN_RELEVANCE_SCORE ≤ n.score.getD 0) = [] →
        ∃ b, pyMax (source_nodes.map nodeScore) = .ok b
          ∧ filter_by_relevance source_nodes min_score?
            = .ok ([], some (belowThresholdWarning b
                (min_score?.getD MIN_RELEVANCE_SCORE))))
    ∧ (source_nodes.filter
          (fun n => min_score?.getD MIN_RELEVANCE_SCORE ≤ n.score.getD 0) ≠ [] →
        ∃ b, pyMax ((source_nodes.filter
            (fun n => min_score?.getD MIN_RELEVANCE_SCORE ≤ n.score.getD 0)).map
              nodeScore) = .ok b
          ∧ (b < HIGH_RELEVANCE_THRESHOLD →
              filter_by_relevance source_nodes min_score?
                = .ok (source_nodes.filter
                    (fun n => min_score?.getD MIN_RELEVANCE_SCORE ≤ n.score.getD 0),
                  some (marginalWarning b)))
          ∧ (HIGH_RELEVANCE_THRESHOLD ≤ b →
              filter_by_relevance source_nodes min_score?
                = .ok (source_nodes.filter
                    (fun n => min_score?.getD MIN_RELEVANCE_SCORE ≤ n.score.getD 0),
                  none))) := by
  refine ⟨?_, ?_, ?_, ?_, ?_⟩
  · intro n
    simp [List.mem_filter]
  · rw [List.filter_eq_nil_iff]
    constructor
    · intro h n hn
      have := h n hn
      simp only [decide_eq_true_eq] at this
      exact lt_of_not_le this
    · intro h n hn
      simp only [decide_eq_true_eq]
      exact not_le_of_lt (h n hn)
  · intro h
    subst h
    rfl
  · intro hne hkept
    obtain ⟨b, hb⟩ := pyMax_ok (l := source_nodes.map nodeScore) (fun hnil =>
      hne (List.map_eq_nil_iff.1 hnil))
    refine ⟨b, hb, ?_⟩
    unfold filter_by_relevance
    rw [if_neg (by simpa [List.isEmpty_iff] using hne),
      if_pos (by simpa [List.isEmpty_iff] using hkept), hb]
  · intro hne
    obtain ⟨b, hb⟩ := pyMax_ok (fun hnil => hne (List.map_eq_nil_iff.1 hnil))
    refine ⟨b, hb, ?_, ?_⟩
    all_goals
      have hbs : pyMax (List.map nodeScore (List.filter
          (fun n => decide (min_score?.getD MIN_RELEVANCE_SCORE ≤ nodeScore n))
          source_nodes)) = Except.ok b := hb
    · intro hlow
      unfold filter_by_relevance
      rw [if_neg (by
          simp only [List.isEmpty_iff]
          intro h0
          exact hne (by rw [h0]; rfl)),
        if_neg (by simpa [List.isEmpty_iff] using hne), hbs]
      simp [hlow, nodeScore]
    · intro hhigh
      unfold filter_by_relevance
      rw [if_neg (by
          simp only [List.isEmpty_iff]
          intro h0
          exact hne (by rw [h0]; rfl)),
        if_neg (by simpa [List.isEmpty_iff] using hne), hbs]
      simp [not_lt_of_le hhigh, nodeScore]

/-- C8 witness: the spec's threshold-determinism example — scores 0.9 and
0.6 against the default threshold 0.75 keep exactly the 0.9 node, and since
0.9 is at least the high threshold 0.85 the warning is None. -/
theorem C8_witness :
    ([⟨"n1", some (9/10 : ℚ)⟩, ⟨"n2", some (3/5 : ℚ)⟩] : List SNode).filter
        (fun n => (none : Option ℚ).getD MIN_RELEVANCE_SCORE ≤ n.score.getD 0)
      ≠ []
    ∧ filter_by_relevance [⟨"n1", some (9/10 : ℚ)⟩, ⟨"n2", some (3/5 : ℚ)⟩] none
      = .ok ([⟨"n1", some (9/10 : ℚ)⟩], none) := by
  have hne : ([⟨"n1", some (9/10 : ℚ)⟩, ⟨"n2", some (3/5 : ℚ)⟩] : List SNode).filter
      (fun n => (none : Option ℚ).getD MIN_RELEVANCE_SCORE ≤ n.score.getD 0) ≠ [] := by
    norm_num [List.filter, MIN_RELEVANCE_SCORE, nodeScore]
  have h := ((C8_filter_by_relevance_cases
    [⟨"n1", some (9/10 : ℚ)⟩, ⟨"n2", some (3/5 : ℚ)⟩] none).2.2.2.2) hne
  obtain ⟨b, hb, -, hgood⟩ := h
  have hbv : b = 9/10 := by
    have : pyMax (([⟨"n1", some (9/10 : ℚ)⟩, ⟨"n2", some (3/5 : ℚ)⟩] : List SNode).filter
        (fun n => (none : Option ℚ).getD MIN_RELEVANCE_SCORE ≤ n.score.getD 0)
          |>.map nodeScore) = .ok (9/10 : ℚ) := by
      norm_num [List.filter, pyMax, MIN_RELEVANCE_SCORE, nodeScore]
    rw [this] at hb
    injection hb with hb2
    exact hb2.symm
  subst hbv
  refine ⟨hne, ?_⟩
  have hres := hgood (by norm_num [HIGH_RELEVANCE_THRESHOLD])
  rw [hres]
  norm_num [List.filter, MIN_RELEVANCE_SCORE, nodeScore]

/-- The parameter names accepted by `get_draft_tools` (tools.py lines
239-247): the function is defined with no parameters at all. -/
def get_draft_tools_params : List String := []

/-- Observable control-flow outcomes of `generate_draft_with_agent`
(draft_agent.py lines 116-186) up to the point where generation could
start: an empty required argument raises `ValueError`; otherwise the call
`get_draft_tools(enable_web_search=...)` at line 178 is reached before the
agent is created, before any web search, and before `agent.chat` runs. -/
inductive DraftCallOutcome where
  | valueError (msg : String)
  | typeErrorUnexpectedKeyword (fn kw : String)
  | generationReached
deriving DecidableEq

/-- Control-flow prefix of `generate_draft_with_agent`: the three
non-emptiness validations (lines 140-145, Python truthiness of a `str` is
non-emptiness), then the keyword call `get_draft_tools(enable_web_search=
enable_web_search)` (line 178), which in Python raises
`TypeError: get_draft_tools() got an unexpected keyword argument` unless the
callee declares that parameter.  The intermediate steps (word-count
clamping, guideline loading, LLM construction) neither raise for these
inputs nor invoke generation, so they do not appear in the outcome. -/
def generate_draft_with_agent (headline thesis outline : String) : DraftCallOutcome :=
  if headline = "" then .valueError "Headline cannot be empty"
  else if thesis = "" then .valueError "Thesis statement cannot be empty"
  else if outline = "" then .valueError "Outline cannot be empty"
  else if "enable_web_search" ∈ get_draft_tools_params then .generationReached
  else .typeErrorUnexpectedKeyword "get_draft_tools" "enable_web_search"

/-- C2: every call to `generate_draft_with_agent` that passes the non-empty
validation of headline, thesis, and outline raises a `TypeError` at the
`get_draft_tools(enable_web_search=...)` call — `get_draft_tools` takes no
parameters — before any generation capability is invoked. -/
theorem C2_draft_agent_type_error (headline thesis outline : String)
    (hh : headline ≠ "") (ht : thesis ≠ "") (ho : outline ≠ "") :
    generate_draft_with_agent headline thesis outline
      = .typeErrorUnexpectedKeyword "get_draft_tools" "enable_web_search" := by
  unfold generate_draft_with_agent
  rw [if_neg hh, if_neg ht, if_neg ho,
    if_neg (by simp [get_draft_tools_params])]

/-- C2 witness: concrete non-empty arguments reach the `TypeError`. -/
theorem C2_witness :
    ("h" : String) ≠ "" ∧ ("t" : String) ≠ "" ∧ ("o" : String) ≠ ""
    ∧ generate_draft_with_agent "h" "t" "o"
      = .typeErrorUnexpectedKeyword "get_draft_tools" "enable_web_search" :=
  ⟨by decide, by decide, by decide,
    C2_draft_agent_type_error "h" "t" "o" (by decide) (by decide) (by decide)⟩

/-- The whitespace characters of Python's `\s`, `str.split()` and
`str.strip()` (ASCII range). -/
def isSpaceChar (c : Char) : Bool :=
  c = ' ' || c = '\t' || c = '\n' || c = '\r' || c = '\x0b' || c = '\x0c'

/-- The backquote delimiter of inline markdown code. -/
def backquoteChar : Char := Char.ofNat 96

/-- Scanner for `re.sub(r'#+\s', '', text)` (count_words, draft_validator.py
line 22): a maximal run of `#` followed by one whitespace character is
deleted; a run not followed by whitespace cannot match at any offset, so it
is copied whole. -/
def stripHeadersAux : Nat → List Char → List Char
  | 0, _ => []
  | _ + 1, [] => []
  | fuel + 1, c :: rest =>
    if c = '#' then
      let hs := rest.takeWhile (fun d => d = '#')
      match rest.dropWhile (fun d => d = '#') with
      | [] => '#' :: hs
      | w :: ws =>
        if isSpaceChar w then stripHeadersAux fuel ws
        else ('#' :: hs) ++ stripHeadersAux fuel (w :: ws)
    else c :: stripHeadersAux fuel rest

/-- Scanner for `re.sub(r'\[([^\]]+)\]\([^\)]+\)', r'\1', text)`
(count_words, line 23): a markdown link is replaced by its label; on a
failed match the scan resumes after the opening bracket. -/
def stripLinksAux : Nat → List Char → List Char
  | 0, _ => []
  | _ + 1, [] => []
  | fuel + 1, c :: rest =>
    if c = '[' then
      let lab := rest.takeWhile (fun d => d ≠ ']')
      match lab, rest.dropWhile (fun d => d ≠ ']') with
      | _ :: _, ']' :: '(' :: rest2 =>
        let url := rest2.takeWhile (fun d => d ≠ ')')
        match url, rest2.dropWhile (fun d => d ≠ ')') with
        | _ :: _, ')' :: rest3 => lab ++ stripLinksAux fuel rest3
        | _, _ => '[' :: stripLinksAux fuel rest
      | _, _ => '[' :: stripLinksAux fuel rest
    else c :: stripLinksAux fuel rest

/-- Scanner for `re.sub(r'\*\*([^\*]+)\*\*', r'\1', text)` (count_words,
line 24): bold emphasis markers are removed around a star-free body. -/
def stripBoldAux : Nat → List Char → List Char
  | 0, _ => []
  | _ + 1, [] => []
  | fuel + 1, c :: rest =>
    if c = '*' then
      match rest with
      | '*' :: rest2 =>
        let body := rest2.takeWhile (fun d => d ≠ '*')
        match body, rest2.dropWhile (fun d => d ≠ '*') with
        | _ :: _, '*' :: '*' :: rest3 => body ++ stripBoldAux fuel rest3
        | _, _ => '*' :: stripBoldAux fuel rest
      | _ => '*' :: stripBoldAux fuel rest
    else c :: stripBoldAux fuel rest

/-- Scanner for a single-character emphasis pattern `d([^d]+)d` replaced by
its body: the italic pattern of line 25 with `d = '*'` and the inline-code
pattern of line 26 with `d` the backquote. -/
def stripDelimAux (d : Char) : Nat → List Char → List Char
  | 0, _ => []
  | _ + 1, [] => []
  | fuel + 1, c :: rest =>
    if c = d then
      let body := rest.takeWhile (fun e => e ≠ d)
      match body, rest.dropWhile (fun e => e ≠ d) with
      | _ :: _, _ :: rest2 => body ++ stripDelimAux d fuel rest2
      | _, _ => d :: stripDelimAux d fuel rest
    else c :: stripDelimAux d fuel rest

/-- Python `str.split()` with no separator: split on whitespace runs,
dropping empty tokens. -/
def splitWsAux : List Char → List Char → List (List Char)
  | [], acc => if acc.isEmpty then [] else [acc.reverse]
  | c :: rest, acc =>
    if isSpaceChar c then
      if acc.isEmpty then splitWsAux rest []
      else acc.reverse :: splitWsAux rest []
    else splitWsAux rest (c :: acc)

/-- `text.split()`. -/
def splitWs (l : List Char) : List (List Char) := splitWsAux l []

/-- Python `str.split(sep)` for a one-character separator, keeping empty
pieces. -/
def splitOnCharAux (d : Char) : List Char → List Char → List (List Char)
  | [], acc => [acc.reverse]
  | c :: rest, acc =>
    if c = d then acc.reverse :: splitOnCharAux d rest []
    else splitOnCharAux d rest (c :: acc)

/-- `text.split(d)`. -/
def splitOnChar (d : Char) (l : List Char) : List (List Char) :=
  splitOnCharAux d l []

/-- Python `str.split('\n\n')`: split at each leftmost non-overlapping
occurrence of a blank-line separator, keeping empty pieces. -/
def splitNlNlAux : List Char → List Char → List (List Char)
  | [], acc => [acc.reverse]
  | '\n' :: '\n' :: rest, acc => acc.reverse :: splitNlNlAux rest []
  | c :: rest, acc => splitNlNlAux rest (c :: acc)

/-- `re.split(r'[.!?]+', text)`: split on maximal runs of sentence-ending
punctuation; the boolean state records whether the scan is inside a run. -/
def splitRunsAux (p : Char → Bool) : List Char → Bool → List Char → List (List Char)
  | [], _, acc => [acc.reverse]
  | c :: rest, false, acc =>
    if p c then acc.reverse :: splitRunsAux p rest true []
    else splitRunsAux p rest false (c :: acc)
  | c :: rest, true, acc =>
    if p c then splitRunsAux p rest true acc
    else splitRunsAux p rest false [c]

/-- Sentence-ending punctuation of `re.split(r'[.!?]+', ...)`. -/
def isSentEnd (c : Char) : Bool := c = '.' || c = '!' || c = '?'

/-- Python `str.strip()`. -/
def pyStrip (l : List Char) : List Char :=
  ((l.dropWhile isSpaceChar).reverse.dropWhile isSpaceChar).reverse

/-- Python `needle in haystack` substring test. -/
def containsSublist (needle : List Char) : List Char → Bool
  | [] => needle.isEmpty
  | c :: rest => needle.isPrefixOf (c :: rest) || containsSublist needle rest

/-- `count_words(text)` of draft_validator.py (lines 11-30): strip heading
markers, convert links to their labels, strip bold, italic and code
markers, then count whitespace-separated tokens. -/
def count_words (text : String) : Nat :=
  let t1 := stripHeadersAux text.data.length text.data
  let t2 := stripLinksAux t1.length t1
  let t3 := stripBoldAux t2.length t2
  let t4 := stripDelimAux '*' t3.length t3
  let t5 := stripDelimAux backquoteChar t4.length t4
  (splitWs t5).length

/-- The joined non-blank non-heading lines of the draft
(validate_editorial_compliance, lines 70-71). -/
def contentChars (draft : String) : List Char :=
  let content_lines := (splitOnChar '\n' draft.data).filter
    (fun l => decide (pyStrip l ≠ []) && decide (l.head? ≠ some '#'))
  List.intercalate [' '] content_lines

/-- The nonempty stripped sentences of a piece of text (lines 74-75 and
93-94). -/
def sentencesOf (l : List Char) : List (List Char) :=
  ((splitRunsAux isSentEnd l false []).map pyStrip).filter (fun s => decide (s ≠ []))

/-- Check 1 of `validate_editorial_compliance` (lines 73-85): the penalty
for average sentence length, 0.2 outside [10,30], 0.1 outside the ideal
[15,20]. -/
def sentenceDelta (draft : String) : ℚ :=
  let sentences := sentencesOf (contentChars draft)
  if sentences.isEmpty then 0
  else
    let avg : ℚ := (sentences.map (fun s => ((splitWs s).length : ℚ))).sum
      / sentences.length
    if avg < 10 ∨ 30 < avg then 1 / 5
    else if avg < 15 ∨ 20 < avg then 1 / 10
    else 0

/-- Check 2 (lines 87-104): penalties for too many very short or very long
paragraphs. -/
def paragraphDelta (draft : String) : ℚ :=
  let paragraphs := (splitNlNlAux draft.data []).filter
    (fun p => decide (pyStrip p ≠ []) && decide (p.head? ≠ some '#'))
  if paragraphs.isEmpty then 0
  else
    let counts := paragraphs.map (fun p => (sentencesOf p).length)
    let very_short := (counts.filter (fun k => decide (k < 2))).length
    let very_long := (counts.filter (fun k => decide (6 < k))).length
    (if (paragraphs.length : ℚ) * (3 / 10) < very_short then 3 / 20 else 0)
      + (if (paragraphs.length : ℚ) * (1 / 5) < very_long then 3 / 20 else 0)

/-- Check 3 (lines 106-115): the citation-density penalty, applied only to
drafts over 500 words. -/
def citationDelta (draft : String) : ℚ :=
  let citation_numbers := extract_source_numbers draft
  let word_count := count_words draft
  if 500 < word_count then
    if ((citation_numbers.length : ℚ) / ((word_count : ℚ) / 100)) < 1 / 2 then 1 / 5
    else 0
  else 0

/-- The banned clickbait phrases (line 118). -/
def clickbait_words : List String :=
  ["shocking", "amazing", "incredible", "unbelievable", "you won\x27t believe"]

/-- Check 4 (lines 117-124): 0.1 per distinct banned phrase found in the
lowercased content (the guarding `if clickbait_count > 0` is equivalent to
subtracting `0.1 * clickbait_count` unconditionally). -/
def clickbaitDelta (draft : String) : ℚ :=
  let content_lower := (contentChars draft).map Char.toLower
  let clickbait_count := (clickbait_words.filter
    (fun w => containsSublist w.data content_lower)).length
  (1 / 10) * clickbait_count

/-- `validate_editorial_compliance(draft)` of draft_validator.py (lines
51-130): the four checks only subtract from the starting score 1.0 and
none reads the running score, so the sequential subtractions equal the
subtraction of the four deltas; the result is clamped to [0,1]
(line 127). -/
def validate_editorial_compliance (draft : String) : ℚ :=
  max 0 (min 1
    (1 - sentenceDelta draft - paragraphDelta draft - citationDelta draft
      - clickbaitDelta draft))

/-- The sentence-length penalty is nonnegative. -/
theorem sentenceDelta_nonneg (draft : String) : 0 ≤ sentenceDelta draft := by
  unfold sentenceDelta
  dsimp only
  split_ifs <;> norm_num

/-- The paragraph-shape penalty is nonnegative. -/
theorem paragraphDelta_nonneg (draft : String) : 0 ≤ paragraphDelta draft := by
  unfold paragraphDelta
  dsimp only
  split_ifs <;> norm_num

/-- The citation-density penalty is nonnegative. -/
theorem citationDelta_nonneg (draft : String) : 0 ≤ citationDelta draft := by
  unfold citationDelta
  dsimp only
  split_ifs <;> norm_num

/-- The clickbait penalty is nonnegative. -/
theorem clickbaitDelta_nonneg (draft : String) : 0 ≤ clickbaitDelta draft := by
  unfold clickbaitDelta
  positivity

/-- A draft with no citations and more than 500 words incurs the full
citation-density penalty. -/
theorem citationDelta_of_no_citations (draft : String)
    (h1 : extract_source_numbers draft = []) (h2 : 500 < count_words draft) :
    citationDelta draft = 1 / 5 := by
  unfold citationDelta
  dsimp only
  rw [if_pos h2, if_pos]
  rw [h1]
  norm_num

/-- C10: the compliance score always lies in [0,1], and a draft with zero
`[N]` citations and a word count over 500 incurs the citation-density
penalty and scores at most 0.8. -/
theorem C10_compliance_bounds (draft : String) :
    (0 ≤ validate_editorial_compliance draft
      ∧ validate_editorial_compliance draft ≤ 1)
    ∧ (extract_source_numbers draft = [] → 500 < count_words draft →
        validate_editorial_compliance draft ≤ 4 / 5) := by
  refine ⟨⟨le_max_left 0 _, max_le (by norm_num) (min_le_left 1 _)⟩, ?_⟩
  intro h1 h2
  unfold validate_editorial_compliance
  have hc : citationDelta draft = 1 / 5 := citationDelta_of_no_citations draft h1 h2
  have hs := sentenceDelta_nonneg draft
  have hp := paragraphDelta_nonneg draft
  have hb := clickbaitDelta_nonneg draft
  apply max_le (by norm_num)
  have := min_le_right (1 : ℚ)
    (1 - sentenceDelta draft - paragraphDelta draft - citationDelta draft
      - clickbaitDelta draft)
  linarith

/-- A 501-word draft with no citations. -/
def bigDraft : String := ⟨List.flatten (List.replicate 501 ['w', ' '])⟩

set_option maxRecDepth 20000 in
/-- C10 witness: the 501-word citation-free draft indeed scores at most
0.8. -/
theorem C10_witness :
    extract_source_numbers bigDraft = []
    ∧ 500 < count_words bigDraft
    ∧ validate_editorial_compliance bigDraft ≤ 4 / 5 :=
  ⟨by decide, by decide,
    (C10_compliance_bounds bigDraft).2 (by decide) (by decide)⟩

end AIJournalist
